import Mathlib

/-!
Shallow embedding of the post-model and blogchain-construction core of
`pylive.py` (class `Post` and class `PyLive`), together with proofs about the
claims of the specification.

Modelling decisions, stated once:
* Python strings are modelled as Lean `String` / `List Char`; the whitespace
  classes of `str.strip` and of the regex `\s`, and the line-break classes of
  `str.splitlines`, are modelled by their ASCII members, which cover every
  input appearing in the repository and in the claims.
* File input, Markdown rendering, Jinja templating, locale-dependent date
  formatting and logging are external collaborators; a document is given to
  the core as a pair of its base filename and its raw text, and the rendered
  HTML is not modelled (no claim mentions it).
* `datetime` values carry only year, month and day here, because the parsed
  formats `%d.%m.%y` and `%d.%m.%Y` never set a time of day.
* Python exceptions raised and caught at the single-file boundary are
  modelled by `Except` with an error tag per raise site.
-/

namespace PyLive

/-! ## Character and string primitives -/

/-- ASCII whitespace, as matched by `str.strip()` and by the regex class `\s`. -/
def isPySpace (c : Char) : Bool :=
  c == ' ' || c == '\t' || c == '\n' || c == '\r' || c == '\x0b' || c == '\x0c'

/-- `str.strip()` on a character list: drop ASCII whitespace from both ends. -/
def pyStripChars (l : List Char) : List Char :=
  ((l.dropWhile isPySpace).reverse.dropWhile isPySpace).reverse

/-- `str.strip()`. -/
def pyStrip (s : String) : String := String.mk (pyStripChars s.data)

/-- `str.lower()` (ASCII). -/
def pyLower (s : String) : String := String.mk (s.data.map Char.toLower)

/-- Line-break characters recognized by `str.splitlines()` (ASCII members). -/
def isLineBreak (c : Char) : Bool :=
  c == '\n' || c == '\r' || c == '\x0b' || c == '\x0c' ||
  c == '\x1c' || c == '\x1d' || c == '\x1e'

/-- Helper for `str.splitlines()`: a break character terminates the current
line; a final break does not open a new empty line. -/
def pySplitlinesAux : List Char → List (List Char)
  | [] => []
  | '\r' :: '\n' :: cs => [] :: pySplitlinesAux cs
  | c :: cs =>
    if isLineBreak c then [] :: pySplitlinesAux cs
    else
      match pySplitlinesAux cs with
      | [] => [[c]]
      | s :: ss => (c :: s) :: ss

/-- `str.splitlines()`. -/
def pySplitlines (s : String) : List String :=
  (pySplitlinesAux s.data).map String.mk

/-- `line.split(":", 1)`: split at the first colon; `none` models the
`ValueError` of unpacking a colon-free line into `key, value`. -/
def splitColon1 : List Char → Option (List Char × List Char)
  | [] => none
  | ':' :: cs => some ([], cs)
  | c :: cs => (splitColon1 cs).map (fun kv => (c :: kv.1, kv.2))

/-! ## Date parsing (`Post.__parse_date`)

`datetime.strptime` with the two formats `"%d.%m.%y"` and `"%d.%m.%Y"`.
CPython compiles `%d` to the regex `(3[01]|[12]\d|0[1-9]|[1-9])`, `%m` to
`(1[0-2]|0[1-9]|[1-9])`, `%y` to two digits and `%Y` to four digits, requires
the whole string to match, and then validates the calendar date; a two-digit
year `yy` maps to `2000 + yy` when `yy ≤ 68` and to `1900 + yy` otherwise. -/

/-- Numeric value of a digit character. -/
def digit (c : Char) : Nat := c.toNat - 48

/-- The two-digit alternatives of the `%d` regex: `3[01]|[12]\d|0[1-9]`. -/
def day2OK (a b : Char) : Bool :=
  (a == '3' && (b == '0' || b == '1')) ||
  ((a == '1' || a == '2') && b.isDigit) ||
  (a == '0' && b.isDigit && b != '0')

/-- The two-digit alternatives of the `%m` regex: `1[0-2]|0[1-9]`. -/
def month2OK (a b : Char) : Bool :=
  (a == '1' && (b == '0' || b == '1' || b == '2')) ||
  (a == '0' && b.isDigit && b != '0')

/-- Match `%d` followed by the literal dot.  A two-digit day is committed to
before the dot is required: the one-digit fallback needs a dot as second
character, which a two-digit match excludes, so no backtracking is lost. -/
def parseDayDot (cs : List Char) : Option (Nat × List Char) :=
  match cs with
  | a :: b :: rest =>
    if day2OK a b then
      match rest with
      | '.' :: rest2 => some (10 * digit a + digit b, rest2)
      | _ => none
    else if a.isDigit && a != '0' && b == '.' then some (digit a, rest)
    else none
  | _ => none

/-- Match `%m` followed by the literal dot (same committing argument). -/
def parseMonthDot (cs : List Char) : Option (Nat × List Char) :=
  match cs with
  | a :: b :: rest =>
    if month2OK a b then
      match rest with
      | '.' :: rest2 => some (10 * digit a + digit b, rest2)
      | _ => none
    else if a.isDigit && a != '0' && b == '.' then some (digit a, rest)
    else none
  | _ => none

/-- Match `%y` against the whole remaining input: exactly two digits. -/
def parseY2 : List Char → Option Nat
  | [a, b] =>
    if a.isDigit && b.isDigit then
      let yy := 10 * digit a + digit b
      some (if yy ≤ 68 then 2000 + yy else 1900 + yy)
    else none
  | _ => none

/-- Match `%Y` against the whole remaining input: exactly four digits. -/
def parseY4 : List Char → Option Nat
  | [a, b, c, d] =>
    if a.isDigit && b.isDigit && c.isDigit && d.isDigit then
      some (1000 * digit a + 100 * digit b + 10 * digit c + digit d)
    else none
  | _ => none

/-- A calendar date as produced by the supported `strptime` formats. -/
structure PyDate where
  year : Nat
  month : Nat
  day : Nat
deriving DecidableEq, Repr

/-- Gregorian leap year. -/
def isLeap (y : Nat) : Bool := (y % 4 == 0 && y % 100 != 0) || y % 400 == 0

/-- Days in a month. -/
def daysInMonth (y m : Nat) : Nat :=
  if m == 2 then (if isLeap y then 29 else 28)
  else if m == 4 || m == 6 || m == 9 || m == 11 then 30
  else 31

/-- The validation `datetime.__new__` performs after the regex match: the
month pattern already guarantees `1 ≤ m ≤ 12` and the day pattern `1 ≤ d`. -/
def mkValidDate (y m d : Nat) : Option PyDate :=
  if 1 ≤ y && y ≤ 9999 && d ≤ daysInMonth y m then some ⟨y, m, d⟩ else none

/-- `datetime.strptime(s, "%d.%m.%y")` resp. `"%d.%m.%Y"` (with `fourYear`). -/
def strptimeDMY (cs : List Char) (fourYear : Bool) : Option PyDate := do
  let (d, r1) ← parseDayDot cs
  let (m, r2) ← parseMonthDot r1
  let y ← if fourYear then parseY4 r2 else parseY2 r2
  mkValidDate y m d

/-- `Post.__parse_date`: try the ordered format list `["%d.%m.%y",
"%d.%m.%Y"]`; the first successful parse wins; `none` on total failure. -/
def pyParseDate (s : String) : Option PyDate :=
  match strptimeDMY s.data false with
  | some dt => some dt
  | none => strptimeDMY s.data true

/-! ## Segmentation (`Post.__segment`)

`re.split(r"---\s*\n", text)`: scan left to right for non-overlapping
matches; a match is three hyphens followed by a greedy run of whitespace that
is backtracked to end at the last newline of the run. -/

/-- Index of the last `'\n'` in a character list, if any. -/
def lastNlIdx : List Char → Option Nat
  | [] => none
  | c :: cs =>
    match lastNlIdx cs with
    | some i => some (i + 1)
    | none => if c == '\n' then some 0 else none

/-- Match the regex `---\s*\n` at the head of `cs`: on success return the
matched delimiter and the remainder.  Greedy `\s*` with the final `\n`
backtracks to the last newline inside the maximal whitespace run. -/
def matchDelim (cs : List Char) : Option (List Char × List Char) :=
  match cs with
  | '-' :: '-' :: '-' :: rest =>
    match lastNlIdx (rest.takeWhile isPySpace) with
    | some j =>
      some ('-' :: '-' :: '-' :: (rest.takeWhile isPySpace).take (j + 1), rest.drop (j + 1))
    | none => none
  | _ => none

/-- The splitting scan of `re.split`.  Each step consumes at least one
character, so recursion on a fuel equal to the input length is exact; the
fuel-exhausted branch is unreachable for `fuel ≥ cs.length`. -/
def pySplitAux : Nat → List Char → List (List Char)
  | 0, cs => [cs]
  | fuel + 1, cs =>
    match matchDelim cs with
    | some (_, rest) => [] :: pySplitAux fuel rest
    | none =>
      match cs with
      | [] => [[]]
      | c :: cs2 =>
        match pySplitAux fuel cs2 with
        | [] => [[c]]
        | s :: ss => (c :: s) :: ss

/-- `re.split(r"---\s*\n", text)`. -/
def pySplit (s : String) : List String :=
  (pySplitAux s.data.length s.data).map String.mk

/-- The segment list of `Post.__segment`: split, strip each piece, keep the
pieces that are non-empty after stripping. -/
def pySegments (s : String) : List String :=
  ((pySplit s).map pyStrip).filter (fun t => t.length > 0)

/-- Header and body selection of `Post.__segment`: the second-to-last segment
is the header, the last is the body; `none` models the raised exception when
fewer than two segments remain. -/
def pySegmentParts (s : String) : Option (String × String) :=
  match (pySegments s).reverse with
  | body :: header :: _ => some (header, body)
  | _ => none

/-! ## Header parsing and validation
(`Post.__parse_header`, `Post.__validate_header`) -/

/-- Error tags for the exceptions a `Post` construction can raise. -/
inductive PErr where
  /-- `__segment`: fewer than two segments. -/
  | malformedDocument
  /-- `__parse_header`: a header line without a colon fails tuple unpacking. -/
  | invalidHeaderLine
  /-- `__parse_header`: the raise guarded by `not self.__validate_header(...)`
  (dead in the source, because `__validate_header` always returns `True`). -/
  | invalidPost
  /-- `__parse_attributes`: `meta["date"]` raises `KeyError`. -/
  | keyErrorDate
deriving DecidableEq, Repr

/-- The metadata dictionary: insertion-ordered keys, last assignment wins. -/
abbrev Dict := List (String × String)

/-- `d[k] = v` on a Python dict: overwrite in place or append. -/
def dictInsert (d : Dict) (k v : String) : Dict :=
  if d.any (fun p => p.1 == k) then
    d.map (fun p => if p.1 == k then (k, v) else p)
  else d ++ [(k, v)]

/-- `d.get(k)` as an option. -/
def dictGet? (d : Dict) (k : String) : Option String :=
  (d.find? (fun p => p.1 == k)).map (fun p => p.2)

/-- `k in d.keys()`. -/
def dictHasKey (d : Dict) (k : String) : Bool := (dictGet? d k).isSome

/-- The header loop of `__parse_header`: for each line, split at the first
colon, lowercase and strip the key, strip the value, store into the dict. -/
def parseHeaderLinesAux (acc : Dict) : List String → Except PErr Dict
  | [] => .ok acc
  | line :: rest =>
    match splitColon1 line.data with
    | none => .error .invalidHeaderLine
    | some (k, v) =>
      parseHeaderLinesAux
        (dictInsert acc (pyStrip (pyLower (String.mk k))) (pyStrip (String.mk v))) rest

/-- `Post.__validate_header`: computes the date field and a validity flag but
returns `True` unconditionally, exactly as the source does.  The result is
`(date written to self.__date, value written to self.valid, return value)`. -/
def pyValidateHeader (d : Dict) : Option PyDate × Bool × Bool :=
  let missing : Bool := !(dictHasKey d "title" && dictHasKey d "date")
  let valid1 : Bool := if missing then false else true
  let date : Option PyDate :=
    if dictHasKey d "date" then pyParseDate ((dictGet? d "date").getD "") else none
  let valid2 : Bool := if dictHasKey d "date" && date.isNone then false else valid1
  (date, valid2, true)

/-- `Post.__parse_header`: build the dict, run validation, and — because the
validation's return value is always `True` — set `self.valid = True`.  The
error branch is dead code, kept for fidelity. -/
def pyParseHeader (header : String) : Except PErr (Dict × Option PyDate × Bool) :=
  match parseHeaderLinesAux [] (pySplitlines header) with
  | .error e => .error e
  | .ok d =>
    if (pyValidateHeader d).2.2 then .ok (d, (pyValidateHeader d).1, true)
    else .error .invalidPost

/-! ## The `Post` record and its construction -/

/-- Module constant `DEFAULT_LOCALE`. -/
def DEFAULT_LOCALE : String := "de_DE"

/-- The fields of a constructed `Post` that the core reads.  `rendered_text`
and `printable_date` are produced by external collaborators (Markdown
renderer, locale formatting) and are not modelled. -/
structure Post where
  filename : String
  raw : String
  raw_text : String
  meta : Dict
  date : Option PyDate
  lang : String
  draft : Bool
  hidden : Bool
  valid : Bool
deriving DecidableEq, Repr

/-- `Post.title`: `self.meta.get("title", "Untitled")`. -/
def Post.title (p : Post) : String := (dictGet? p.meta "title").getD "Untitled"

/-- The language resolution of `__parse_attributes`: first of `lang`,
`language` present wins, else the default locale. -/
def parseAttrsLang (meta : Dict) : String :=
  match dictGet? meta "lang" with
  | some v => pyStrip v
  | none =>
    match dictGet? meta "language" with
    | some v => pyStrip v
    | none => DEFAULT_LOCALE

/-- `Post(full_filename)`, with the raw text supplied by the caller (file
reading is external).  Follows `__init__`: segment, parse and validate the
header, then `__parse_attributes`.  In the source, line 365 reads
`self.__date == self.__parse_date(meta["date"])` — a comparison, not an
assignment — whose only effect is the `KeyError` when `date` is absent; the
date field keeps the value written by `__validate_header`. -/
def mkPost (filename : String) (raw : String) : Except PErr Post :=
  match pySegmentParts raw with
  | none => .error .malformedDocument
  | some (headerSeg, bodySeg) =>
    match pyParseHeader headerSeg with
    | .error e => .error e
    | .ok (meta, date0, valid0) =>
      if dictHasKey meta "date" then
        .ok { filename := filename, raw := raw, raw_text := bodySeg, meta := meta
              date := date0, lang := parseAttrsLang meta
              draft := dictHasKey meta "draft", hidden := dictHasKey meta "hidden"
              valid := valid0 }
      else .error .keyErrorDate

/-! ## Ordering (`Post.__lt__`, `Post.__gt__`) and the sort -/

/-- Strict comparison of dates, as `datetime.__lt__` restricted to the fields
the supported formats produce. -/
def dateLtB (a b : PyDate) : Bool :=
  decide (a.year < b.year) ||
  (a.year == b.year &&
    (decide (a.month < b.month) ||
      (a.month == b.month && decide (a.day < b.day))))

/-- `Post.__lt__`: compare dates when both are set, otherwise `False`. -/
def postLtB (a b : Post) : Bool :=
  match a.date, b.date with
  | some x, some y => dateLtB x y
  | _, _ => false

/-- `Post.__gt__`: compare dates when both are set, otherwise `False`. -/
def postGtB (a b : Post) : Bool :=
  match a.date, b.date with
  | some x, some y => dateLtB y x
  | _, _ => false

/-- `sorted(list_of_post_objects, reverse=True)`: a stable descending sort
driven by `Post.__lt__`, modelled as insertion sort with the relation
"`a` may precede `b` iff not `a < b`". -/
def sortPosts (l : List Post) : List Post :=
  List.insertionSort (fun a b => postLtB a b = false) l

/-! ## Chain linking (`PyLive.create_blogchain`)

The Python loop mutates `next`/`prev` on the post objects of the sorted
list.  Object references are modelled as indices into that list: position
`i` holds the object `sorted[i]`, and a link `some j` is a reference to the
object at position `j`. -/

/-- A post of the returned chain together with its two link fields. -/
structure LinkedPost where
  post : Post
  prev : Option Nat
  next : Option Nat
deriving DecidableEq, Repr

/-- The mutable state of the chain-link loop: the `prev`/`next` fields of all
positions, and the `last_unhidden_post` reference. -/
structure LinkState where
  prevF : Nat → Option Nat
  nextF : Nat → Option Nat
  lastUnhidden : Option Nat

/-- Pointwise update of a link table. -/
def updF (f : Nat → Option Nat) (k : Nat) (v : Option Nat) : Nat → Option Nat :=
  fun x => if x = k then v else f x

/-- One iteration of the loop body for index `i` (`n` = list length,
`hid i` = `list_of_post_objects[i].hidden`): compute `next_post`; a hidden
post only retargets `last_unhidden_post.next`; a visible post receives both
links and becomes the last unhidden post. -/
def linkStep (hid : Nat → Bool) (n : Nat) (st : LinkState) (i : Nat) : LinkState :=
  let nextIdx : Option Nat := if i + 1 < n then some (i + 1) else none
  if hid i then
    match st.lastUnhidden with
    | some j => { st with nextF := updF st.nextF j nextIdx }
    | none => st
  else
    { prevF := updF st.prevF i st.lastUnhidden
      nextF := updF st.nextF i nextIdx
      lastUnhidden := some i }

/-- The whole loop `for i in range(0, len(list_of_post_objects))`. -/
def linkFold (hid : Nat → Bool) (n : Nat) : LinkState :=
  (List.range n).foldl (linkStep hid n) ⟨fun _ => none, fun _ => none, none⟩

/-- Hidden flag of the post at a position (positions past the end never
arise in the loop). -/
def postHid (posts : List Post) : Nat → Bool :=
  fun i => ((posts.get? i).map Post.hidden).getD false

/-- The chain-link pass applied to the sorted list: every post keeps its
slot; its link fields are read off the final loop state. -/
def linkChain (posts : List Post) : List LinkedPost :=
  let st := linkFold (postHid posts) posts.length
  posts.enum.map (fun ip => { post := ip.2, prev := st.prevF ip.1, next := st.nextF ip.1 })

/-- The per-file step of `create_blogchain`: `create_post_object` catches
every construction error and yields `None`; the loop then appends the post
only `if post and not post.draft`. -/
def pubFilter (doc : String × String) : Option Post :=
  match mkPost doc.1 doc.2 with
  | .ok p => if p.draft then none else some p
  | .error _ => none

/-- `PyLive.create_blogchain`, taking the candidate documents (base filename
and raw text) in discovery order: construct, drop failures and drafts, sort
by date descending, chain-link around hidden posts. -/
def create_blogchain (docs : List (String × String)) : List LinkedPost :=
  linkChain (sortPosts (docs.filterMap pubFilter))

/-- The positions of the visible (non-hidden) posts of a chain, in order. -/
def visibleIndices (ch : List LinkedPost) : List Nat :=
  (List.range ch.length).filter
    (fun i => ((ch.get? i).map (fun e => !e.post.hidden)).getD false)

/-! ## Spec-side segmentation, for the refinement claim C8

The specification describes the split as occurring at lines consisting solely
of three hyphens optionally followed by trailing whitespace.  The following
definitions formalize that wording, to be compared with `pySegments`. -/

/-- Split a list at every element satisfying `p`, dropping the separators. -/
def splitOnPred {α : Type} (p : α → Bool) : List α → List (List α)
  | [] => [[]]
  | a :: rest =>
    if p a then [] :: splitOnPred p rest
    else
      match splitOnPred p rest with
      | [] => [[a]]
      | s :: ss => (a :: s) :: ss

/-- The lines of a text, split at every newline character. -/
def strSplitNl (s : String) : List String :=
  (splitOnPred (fun c => c == '\n') s.data).map String.mk

/-- Modelled from the spec: a line consisting solely of three hyphens
optionally followed by trailing whitespace. -/
def isDelimLine (line : String) : Bool :=
  match line.data with
  | '-' :: '-' :: '-' :: rest => rest.all isPySpace
  | _ => false

/-- Modelled from the spec: split the text exactly at delimiter lines, strip
the chunks, keep the non-empty ones. -/
def specSegments (text : String) : List String :=
  (((splitOnPred isDelimLine (strSplitNl text)).map
      (fun ls => pyStrip (String.intercalate "\n" ls))).filter
    (fun s => s.length > 0))

/-- Modelled from the spec: header and body selection over `specSegments`. -/
def specSegmentParts (text : String) : Option (String × String) :=
  match (specSegments text).reverse with
  | body :: header :: _ => some (header, body)
  | _ => none

/-- A full match of the regex `---\s*\n`: three hyphens, then whitespace
only, ending with a newline. -/
def isDelimMatch (d : List Char) : Bool :=
  match d with
  | '-' :: '-' :: '-' :: w => w.all isPySpace && w.getLast? == some '\n'
  | _ => false

/-- Interleave segments with the delimiters that separated them; used to
state that the split decomposes the original text. -/
def interleave : List (List Char) → List (List Char) → List Char
  | [s], [] => s
  | s :: ss, d :: ds => s ++ d ++ interleave ss ds
  | _, _ => []

/-! ## Concrete input documents used by the claims -/

/-- A visible post with the newest date. -/
def rawA : String := "---\ntitle: A\ndate: 03.01.23\n---\nNewest post"

/-- A hidden post with the middle date. -/
def rawB : String := "---\ntitle: B\ndate: 02.01.23\nhidden: true\n---\nHidden post"

/-- A visible post with the oldest date. -/
def rawC : String := "---\ntitle: C\ndate: 01.01.23\n---\nOldest post"

/-- The three-post batch of claim C1, given in non-chronological input order. -/
def docsABC : List (String × String) := [("c.md", rawC), ("b.md", rawB), ("a.md", rawA)]

/-- A document whose header has a date in an unsupported format. -/
def rawBadDate : String := "---\ntitle: T\ndate: 2023-01-01\n---\nBody"

/-- A document whose header has a date but no title. -/
def rawNoTitle : String := "---\ndate: 01.01.23\n---\nBody"

/-- A document whose header lacks the date key. -/
def rawNoDate : String := "---\ntitle: N\n---\nNo date here"

/-- The three-file batch of claim C6: two valid posts and one missing-date
document. -/
def docsC6 : List (String × String) := [("a.md", rawA), ("n.md", rawNoDate), ("c.md", rawC)]

/-- The two-post batch used by witnesses. -/
def docsAC : List (String × String) := [("c.md", rawC), ("a.md", rawA)]

/-- The `Post` object `mkPost` builds from `rawA` (used by witnesses). -/
def postA : Post :=
  { filename := "a.md", raw := rawA, raw_text := "Newest post"
    meta := [("title", "A"), ("date", "03.01.23")]
    date := some ⟨2023, 1, 3⟩, lang := "de_DE"
    draft := false, hidden := false, valid := true }

instance : DecidableEq (Except PErr Post) := fun a b =>
  match a, b with
  | .ok x, .ok y => decidable_of_iff (x = y) (by simp)
  | .error x, .error y => decidable_of_iff (x = y) (by simp)
  | .ok _, .error _ => isFalse (fun h => by cases h)
  | .error _, .ok _ => isFalse (fun h => by cases h)

/-! ## Auxiliary notions used to state and prove the chain invariant -/

/-- The positions among `0, …, m-1` holding visible posts, in order. -/
def visTo (hid : Nat → Bool) (m : Nat) : List Nat :=
  (List.range m).filter (fun i => !hid i)

/-- The loop invariant of the chain-link pass after processing positions
`0, …, m-1` of a list of length `n`: the visible positions seen so far are
doubly linked in order, the final visible position's forward link dangles at
the next unprocessed position, and every other link table entry is unset. -/
structure LinkInv (hid : Nat → Bool) (n m : Nat) (st : LinkState) : Prop where
  last_eq : st.lastUnhidden = (visTo hid m).getLast?
  chain : List.Chain' (fun a b => st.nextF a = some b ∧ st.prevF b = some a) (visTo hid m)
  head_prev : ∀ h, (visTo hid m).head? = some h → st.prevF h = none
  last_next : ∀ l, (visTo hid m).getLast? = some l →
      st.nextF l = if m < n then some m else none
  untouched : ∀ i, i ∉ visTo hid m → st.prevF i = none ∧ st.nextF i = none

/-! ## Lemmas: link tables and visible positions -/

theorem updF_same (f : Nat → Option Nat) (k : Nat) (v : Option Nat) :
    updF f k v k = v := by simp [updF]

theorem updF_ne {x k : Nat} (f : Nat → Option Nat) (v : Option Nat) (h : x ≠ k) :
    updF f k v x = f x := by simp [updF, h]

theorem mem_visTo {hid : Nat → Bool} {m i : Nat} :
    i ∈ visTo hid m ↔ i < m ∧ hid i = false := by
  simp [visTo, List.mem_filter, List.mem_range]

theorem visTo_pairwise (hid : Nat → Bool) (m : Nat) :
    (visTo hid m).Pairwise (· < ·) :=
  (List.pairwise_lt_range m).filter _

theorem visTo_succ (hid : Nat → Bool) (m : Nat) :
    visTo hid (m + 1) = visTo hid m ++ (if hid m then [] else [m]) := by
  unfold visTo
  rw [List.range_succ, List.filter_append]
  cases h : hid m <;> simp [h, List.filter_singleton]

theorem lt_of_mem_visTo {hid : Nat → Bool} {m i : Nat} (h : i ∈ visTo hid m) : i < m :=
  (mem_visTo.mp h).1

theorem linkInv_step {hid : Nat → Bool} {n m : Nat} {st : LinkState}
    (hm : m < n) (inv : LinkInv hid n m st) :
    LinkInv hid n (m + 1) (linkStep hid n st m) := by
  cases hh : hid m with
  | true =>
    have hvis : visTo hid (m + 1) = visTo hid m := by rw [visTo_succ, hh]; simp
    cases hlu : st.lastUnhidden with
    | none =>
      have hstep : linkStep hid n st m = st := by simp [linkStep, hh, hlu]
      rw [hstep]
      exact ⟨by rw [hvis]; exact inv.last_eq, by rw [hvis]; exact inv.chain,
        by rw [hvis]; exact inv.head_prev,
        by rw [hvis]; intro l hl; rw [← inv.last_eq, hlu] at hl; simp at hl,
        by rw [hvis]; exact inv.untouched⟩
    | some j =>
      have hj : (visTo hid m).getLast? = some j := by
        rw [← inv.last_eq, hlu]
      have hjmem : j ∈ visTo hid m := List.mem_of_getLast?_eq_some hj
      have hstep : linkStep hid n st m =
          { st with nextF := updF st.nextF j (if m + 1 < n then some (m + 1) else none) } := by
        simp [linkStep, hh, hlu]
      rw [hstep]
      have hchain := inv.chain
      refine ⟨?_, ?_, ?_, ?_, ?_⟩ <;> dsimp only
      · rw [hvis]; exact inv.last_eq
      · rw [hvis]
        rw [List.chain'_iff_get] at hchain ⊢
        intro i hi
        obtain ⟨h1, h2⟩ := hchain i hi
        have hjget : (visTo hid m).get? ((visTo hid m).length - 1) = some j := by
          rw [← List.getLast?_eq_get?]; exact hj
        have hne : (visTo hid m).get ⟨i, by omega⟩ ≠ j := by
          obtain ⟨hl, he⟩ := List.get?_eq_some.mp hjget
          have hlt : (visTo hid m).get ⟨i, by omega⟩ <
              (visTo hid m).get ⟨(visTo hid m).length - 1, hl⟩ :=
            List.pairwise_iff_get.mp (visTo_pairwise hid m) _ _ (Fin.mk_lt_mk.mpr (by omega))
          rw [he] at hlt
          omega
        exact ⟨by rw [updF_ne _ _ hne]; exact h1, h2⟩
      · rw [hvis]; exact inv.head_prev
      · rw [hvis]
        intro l hl
        have : l = j := by rw [hj] at hl; injection hl with h3; exact h3.symm
        subst this
        rw [updF_same]
      · rw [hvis]
        intro i hi
        have hne : i ≠ j := fun he => hi (he ▸ hjmem)
        exact ⟨(inv.untouched i hi).1, by rw [updF_ne _ _ hne]; exact (inv.untouched i hi).2⟩
  | false =>
    have hvis : visTo hid (m + 1) = visTo hid m ++ [m] := by rw [visTo_succ, hh]; simp
    have hstep : linkStep hid n st m =
        { prevF := updF st.prevF m st.lastUnhidden
          nextF := updF st.nextF m (if m + 1 < n then some (m + 1) else none)
          lastUnhidden := some m } := by
      simp [linkStep, hh]
    have hltm : ∀ x ∈ visTo hid m, x < m := fun x hx => lt_of_mem_visTo hx
    have hchain := inv.chain
    rw [hstep]
    refine ⟨?_, ?_, ?_, ?_, ?_⟩ <;> dsimp only
    · rw [hvis, List.getLast?_concat]
    · rw [hvis, List.chain'_append]
      refine ⟨?_, List.chain'_singleton m, ?_⟩
      · rw [List.chain'_iff_get] at hchain ⊢
        intro i hi
        obtain ⟨h1, h2⟩ := hchain i hi
        have m1 : (visTo hid m).get ⟨i, by omega⟩ ∈ visTo hid m := List.get_mem _ _ _
        have m2 : (visTo hid m).get ⟨i + 1, by omega⟩ ∈ visTo hid m := List.get_mem _ _ _
        have ne1 : (visTo hid m).get ⟨i, by omega⟩ ≠ m := by have := hltm _ m1; omega
        have ne2 : (visTo hid m).get ⟨i + 1, by omega⟩ ≠ m := by have := hltm _ m2; omega
        exact ⟨by rw [updF_ne _ _ ne1]; exact h1, by rw [updF_ne _ _ ne2]; exact h2⟩
      · intro x hx y hy
        have hy2 : m = y := by simpa using hy
        subst hy2
        have hx2 : (visTo hid m).getLast? = some x := hx
        have hxmem : x ∈ visTo hid m := List.mem_of_getLast?_eq_some hx2
        have hnex : x ≠ m := by have := hltm _ hxmem; omega
        constructor
        · rw [updF_ne _ _ hnex, inv.last_next x hx2, if_pos hm]
        · rw [updF_same, inv.last_eq, hx2]
    · rw [hvis]
      intro h hh2
      cases hv : visTo hid m with
      | nil =>
        rw [hv] at hh2
        have he2 : m = h := by simpa using hh2
        subst he2
        rw [updF_same, inv.last_eq, hv]
        rfl
      | cons a t =>
        rw [hv] at hh2
        have he2 : a = h := by simpa using hh2
        subst he2
        have hamem : a ∈ visTo hid m := by rw [hv]; exact List.mem_cons_self _ _
        have hne : a ≠ m := by have := hltm _ hamem; omega
        rw [updF_ne _ _ hne]
        exact inv.head_prev a (by rw [hv]; rfl)
    · rw [hvis, List.getLast?_concat]
      intro l hl
      have : l = m := by injection hl with h3; exact h3.symm
      subst this
      rw [updF_same]
    · rw [hvis]
      intro i hi
      rw [List.mem_append, List.mem_singleton] at hi
      push_neg at hi
      obtain ⟨hi1, hi2⟩ := hi
      exact ⟨by rw [updF_ne _ _ hi2]; exact (inv.untouched i hi1).1,
        by rw [updF_ne _ _ hi2]; exact (inv.untouched i hi1).2⟩

theorem linkInv_fold (hid : Nat → Bool) (n : Nat) :
    ∀ m, m ≤ n →
      LinkInv hid n m
        ((List.range m).foldl (linkStep hid n) ⟨fun _ => none, fun _ => none, none⟩)
  | 0, _ => by
    refine ⟨rfl, List.chain'_nil, ?_, ?_, fun i _ => ⟨rfl, rfl⟩⟩ <;>
      · intro x hx; simp [visTo] at hx
  | m + 1, h => by
    rw [List.range_succ, List.foldl_append, List.foldl_cons, List.foldl_nil]
    exact linkInv_step (by omega) (linkInv_fold hid n m (by omega))

theorem linkFold_inv (hid : Nat → Bool) (n : Nat) : LinkInv hid n n (linkFold hid n) :=
  linkInv_fold hid n n (le_refl n)

/-! ## Lemmas connecting `linkChain` to the loop state -/

theorem enumFrom_map_snd {α : Type} (k : Nat) (l : List α) :
    (l.enumFrom k).map Prod.snd = l := by
  induction l generalizing k with
  | nil => rfl
  | cons a t ih => simp only [List.enumFrom_cons, List.map_cons]; rw [ih]

theorem linkChain_map_post (l : List Post) : (linkChain l).map LinkedPost.post = l := by
  unfold linkChain
  rw [List.map_map]
  exact enumFrom_map_snd 0 l

theorem linkChain_length (l : List Post) : (linkChain l).length = l.length := by
  simp [linkChain]

theorem linkChain_get? (l : List Post) (i : Nat) :
    (linkChain l).get? i = (l.get? i).map
      (fun p => ⟨p, (linkFold (postHid l) l.length).prevF i,
        (linkFold (postHid l) l.length).nextF i⟩) := by
  unfold linkChain
  rw [List.get?_map, List.get?_enum]
  cases l.get? i <;> rfl

theorem visibleIndices_linkChain (l : List Post) :
    visibleIndices (linkChain l) = visTo (postHid l) l.length := by
  unfold visibleIndices visTo
  rw [linkChain_length]
  apply List.filter_congr
  intro i hi
  rw [List.mem_range] at hi
  have hp : l.get? i = some (l.get ⟨i, hi⟩) := List.get?_eq_some.mpr ⟨hi, rfl⟩
  rw [linkChain_get?, hp]
  simp [postHid, List.get?_eq_getElem?, List.getElem?_eq_getElem hi]

/-! ## Lemmas about `mkPost` -/

theorem pyValidateHeader_ret (d : Dict) : (pyValidateHeader d).2.2 = true := rfl

theorem pyParseHeader_valid {s : String} {m : Dict} {d : Option PyDate} {v : Bool}
    (h : pyParseHeader s = .ok (m, d, v)) : v = true := by
  unfold pyParseHeader at h
  split at h
  · cases h
  · rename_i dict heq
    rw [pyValidateHeader_ret dict] at h
    simp only [if_true, Except.ok.injEq, Prod.mk.injEq] at h
    exact h.2.2.symm

theorem mkPost_ok_spec {fn raw : String} {p : Post} (h : mkPost fn raw = .ok p) :
    p.valid = true ∧ p.draft = dictHasKey p.meta "draft" ∧
      p.hidden = dictHasKey p.meta "hidden" := by
  unfold mkPost at h
  split at h
  · cases h
  · rename_i hb headerSeg bodySeg
    split at h
    · cases h
    · rename_i t meta date0 valid0 hph
      have hv : valid0 = true := pyParseHeader_valid hph
      split at h
      · injection h with h2
        subst h2
        exact ⟨hv, rfl, rfl⟩
      · cases h

/-! ## The chain-integrity consequences of the invariant -/

theorem postHid_eq_false {l : List Post} {i : Nat} {p : Post}
    (hp : l.get? i = some p) : postHid l i = p.hidden := by
  have hp2 : l[i]? = some p := by rw [← List.get?_eq_getElem?]; exact hp
  simp [postHid, hp2]

theorem linkChain_get?_of_lt {l : List Post} {i : Nat} (hi : i < l.length) :
    ∃ p, l.get? i = some p ∧ (linkChain l).get? i =
      some ⟨p, (linkFold (postHid l) l.length).prevF i,
        (linkFold (postHid l) l.length).nextF i⟩ := by
  refine ⟨l.get ⟨i, hi⟩, List.get?_eq_some.mpr ⟨hi, rfl⟩, ?_⟩
  rw [linkChain_get?, List.get?_eq_some.mpr ⟨hi, rfl⟩]
  rfl

theorem linkChain_integrity (l : List Post) :
    (∀ i j e, (linkChain l).get? i = some e → e.post.hidden = false →
        e.next = some j →
        ∃ e2, (linkChain l).get? j = some e2 ∧ e2.post.hidden = false ∧
          e2.prev = some i) ∧
    List.Chain' (fun a b => ∃ e, (linkChain l).get? a = some e ∧ e.next = some b)
      (visibleIndices (linkChain l)) ∧
    (∀ a, (visibleIndices (linkChain l)).getLast? = some a →
        ∃ e, (linkChain l).get? a = some e ∧ e.next = none) ∧
    (∀ a, (visibleIndices (linkChain l)).head? = some a →
        ∃ e, (linkChain l).get? a = some e ∧ e.prev = none) := by
  have inv := linkFold_inv (postHid l) l.length
  have hvi := visibleIndices_linkChain l
  -- a position in the final visible list yields its chain entry
  have entry : ∀ a ∈ visTo (postHid l) l.length,
      ∃ p, l.get? a = some p ∧ p.hidden = false ∧ (linkChain l).get? a =
        some ⟨p, (linkFold (postHid l) l.length).prevF a,
          (linkFold (postHid l) l.length).nextF a⟩ := by
    intro a ha
    obtain ⟨halt, hahid⟩ := mem_visTo.mp ha
    obtain ⟨p, hp, hc⟩ := linkChain_get?_of_lt halt
    refine ⟨p, hp, ?_, hc⟩
    rw [← postHid_eq_false hp]
    exact hahid
  refine ⟨?_, ?_, ?_, ?_⟩
  · intro i j e he hhid hnext
    rw [linkChain_get?] at he
    cases hp : l.get? i with
    | none => rw [hp] at he; cases he
    | some p =>
      rw [hp] at he
      injection he with he2
      subst he2
      obtain ⟨hi, -⟩ := List.get?_eq_some.mp hp
      have hidi : postHid l i = false := by
        rw [postHid_eq_false hp]; exact hhid
      have hmem : i ∈ visTo (postHid l) l.length := mem_visTo.mpr ⟨hi, hidi⟩
      obtain ⟨⟨k, hk⟩, hik⟩ := List.mem_iff_get.mp hmem
      by_cases hlast : k = (visTo (postHid l) l.length).length - 1
      · -- `i` would be the final visible position, whose forward link is unset
        have hgl : (visTo (postHid l) l.length).getLast? = some i := by
          rw [List.getLast?_eq_get?, ← hlast]
          exact List.get?_eq_some.mpr ⟨hk, hik⟩
        have := inv.last_next i hgl
        rw [if_neg (lt_irrefl _)] at this
        rw [this] at hnext
        cases hnext
      · have hk1 : k + 1 < (visTo (postHid l) l.length).length := by omega
        obtain ⟨hn1, hp1⟩ := List.chain'_iff_get.mp inv.chain k (by omega)
        rw [hik] at hn1 hp1
        rw [hn1] at hnext
        injection hnext with hj
        rw [hj] at hp1
        have hjmem : j ∈ visTo (postHid l) l.length := by
          rw [← hj]; exact List.get_mem _ _ _
        obtain ⟨q, hq, hqhid, hqc⟩ := entry j hjmem
        refine ⟨_, hqc, hqhid, ?_⟩
        simpa using hp1
  · rw [hvi, List.chain'_iff_get]
    intro k hk
    obtain ⟨hn1, -⟩ := List.chain'_iff_get.mp inv.chain k hk
    have hmem := List.get_mem (visTo (postHid l) l.length) k (by omega)
    obtain ⟨p, hp, hphid, hpc⟩ := entry _ hmem
    exact ⟨_, hpc, hn1⟩
  · rw [hvi]
    intro a ha
    have hmem := List.mem_of_getLast?_eq_some ha
    obtain ⟨p, hp, hphid, hpc⟩ := entry a hmem
    refine ⟨_, hpc, ?_⟩
    have := inv.last_next a ha
    rw [if_neg (lt_irrefl _)] at this
    exact this
  · rw [hvi]
    intro a ha
    have hmem := List.mem_of_mem_head? ha
    obtain ⟨p, hp, hphid, hpc⟩ := entry a hmem
    exact ⟨_, hpc, inv.head_prev a ha⟩

/-! ## Lemmas about the descending sort -/

theorem dateLtB_eq_true_iff (x y : PyDate) : dateLtB x y = true ↔
    (x.year < y.year ∨ (x.year = y.year ∧
      (x.month < y.month ∨ (x.month = y.month ∧ x.day < y.day)))) := by
  simp [dateLtB]

theorem dateLtB_eq_false_iff (x y : PyDate) : dateLtB x y = false ↔
    ¬ (x.year < y.year ∨ (x.year = y.year ∧
      (x.month < y.month ∨ (x.month = y.month ∧ x.day < y.day)))) := by
  rw [← dateLtB_eq_true_iff, Bool.eq_false_iff]

theorem postLtB_asymm {a b : Post} (h : postLtB a b = true) : postLtB b a = false := by
  rcases ha : a.date with - | x <;> rcases hb : b.date with - | y <;>
    simp only [postLtB, ha, hb] at h ⊢
  all_goals first
  | cases h
  | (rw [dateLtB_eq_true_iff] at h; rw [dateLtB_eq_false_iff]; omega)

theorem notLt_trans {a b c : Post}
    (hab : postLtB a b = false) (hbc : postLtB b c = false)
    (ha : a.date.isSome = true) (hb : b.date.isSome = true)
    (hc : c.date.isSome = true) : postLtB a c = false := by
  obtain ⟨x, hx⟩ := Option.isSome_iff_exists.mp ha
  obtain ⟨y, hy⟩ := Option.isSome_iff_exists.mp hb
  obtain ⟨z, hz⟩ := Option.isSome_iff_exists.mp hc
  simp only [postLtB, hx, hy, hz] at hab hbc ⊢
  rw [dateLtB_eq_false_iff] at hab hbc ⊢
  omega

theorem pairwise_orderedInsert (a : Post) (l : List Post)
    (ha : a.date.isSome = true) (hl : ∀ x ∈ l, x.date.isSome = true)
    (hp : l.Pairwise (fun u v => postLtB u v = false)) :
    (List.orderedInsert (fun u v => postLtB u v = false) a l).Pairwise
      (fun u v => postLtB u v = false) := by
  induction l with
  | nil => simp [List.orderedInsert]
  | cons b t ih =>
    rw [List.orderedInsert]
    obtain ⟨hb_t, hp_t⟩ := List.pairwise_cons.mp hp
    by_cases hr : postLtB a b = false
    · rw [if_pos hr]
      refine List.pairwise_cons.mpr ⟨?_, hp⟩
      intro y hy
      rcases List.mem_cons.mp hy with h1 | h2
      · subst h1; exact hr
      · exact notLt_trans hr (hb_t y h2) ha (hl b (List.mem_cons_self b t))
          (hl y (List.mem_cons_of_mem b h2))
    · rw [if_neg hr]
      refine List.pairwise_cons.mpr
        ⟨?_, ih (fun x hx => hl x (List.mem_cons_of_mem b hx)) hp_t⟩
      intro y hy
      rcases (List.mem_orderedInsert _).mp hy with h1 | h2
      · rw [h1]
        have hab : postLtB a b = true := by
          cases h2 : postLtB a b
          · exact absurd h2 hr
          · rfl
        exact postLtB_asymm hab
      · exact hb_t y h2

theorem sortPosts_perm (l : List Post) : List.Perm (sortPosts l) l :=
  List.perm_insertionSort _ l

theorem pairwise_sortPosts (l : List Post) (hl : ∀ x ∈ l, x.date.isSome = true) :
    (sortPosts l).Pairwise (fun u v => postLtB u v = false) := by
  induction l with
  | nil => exact List.Pairwise.nil
  | cons a t ih =>
    have hstep : sortPosts (a :: t) =
        List.orderedInsert (fun u v => postLtB u v = false) a (sortPosts t) := rfl
    rw [hstep]
    exact pairwise_orderedInsert a (sortPosts t) (hl a (List.mem_cons_self a t))
      (fun x hx => hl x (List.mem_cons_of_mem a ((sortPosts_perm t).subset hx)))
      (ih (fun x hx => hl x (List.mem_cons_of_mem a hx)))

theorem postGtB_of_notLt_ne {a b : Post}
    (hab : postLtB a b = false) (hne : a.date ≠ b.date)
    (ha : a.date.isSome = true) (hb : b.date.isSome = true) :
    postGtB a b = true := by
  obtain ⟨x, hx⟩ := Option.isSome_iff_exists.mp ha
  obtain ⟨y, hy⟩ := Option.isSome_iff_exists.mp hb
  rw [hx, hy] at hne
  have hxy : x ≠ y := fun h => hne (by rw [h])
  simp only [postLtB, hx, hy] at hab
  simp only [postGtB, hx, hy]
  rw [dateLtB_eq_false_iff] at hab
  rw [dateLtB_eq_true_iff]
  have hcomp : x.year ≠ y.year ∨ x.month ≠ y.month ∨ x.day ≠ y.day := by
    by_contra hcon
    push_neg at hcon
    exact hxy (by cases x; cases y; simp_all)
  omega

theorem sortPosts_strict (l : List Post) (hl : ∀ x ∈ l, x.date.isSome = true)
    (hnd : (l.map Post.date).Nodup) :
    (sortPosts l).Pairwise (fun u v => postGtB u v = true) := by
  have h1 := pairwise_sortPosts l hl
  have hnd2 : ((sortPosts l).map Post.date).Nodup :=
    (((sortPosts_perm l).map Post.date).nodup_iff).mpr hnd
  have h2 : (sortPosts l).Pairwise (fun u v => u.date ≠ v.date) :=
    List.pairwise_map.mp hnd2
  have hmem : ∀ x ∈ sortPosts l, x.date.isSome = true :=
    fun x hx => hl x ((sortPosts_perm l).subset hx)
  refine (h1.and h2).imp_of_mem ?_
  intro a b hma hmb hab
  exact postGtB_of_notLt_ne hab.1 hab.2 (hmem a hma) (hmem b hmb)

theorem postGtB_asymm {a b : Post} (h1 : postGtB a b = true)
    (h2 : postGtB b a = true) : False := by
  rcases ha : a.date with - | x <;> rcases hb : b.date with - | y <;>
    simp only [postGtB, ha, hb] at h1 h2
  all_goals first
  | cases h1
  | (rw [dateLtB_eq_true_iff] at h1 h2; omega)

theorem sortPosts_eq_of_perm {l1 l2 : List Post} (hp : List.Perm l1 l2)
    (hl : ∀ x ∈ l1, x.date.isSome = true) (hnd : (l1.map Post.date).Nodup) :
    sortPosts l1 = sortPosts l2 := by
  have hl2 : ∀ x ∈ l2, x.date.isSome = true := fun x hx => hl x (hp.symm.subset hx)
  have hnd2 : (l2.map Post.date).Nodup := ((hp.map Post.date).nodup_iff).mp hnd
  have hs1 := sortPosts_strict l1 hl hnd
  have hs2 := sortPosts_strict l2 hl2 hnd2
  have hperm : List.Perm (sortPosts l1) (sortPosts l2) :=
    (sortPosts_perm l1).trans (hp.trans (sortPosts_perm l2).symm)
  haveI : IsAntisymm Post (fun u v => postGtB u v = true) :=
    ⟨fun a b h1 h2 => absurd (postGtB_asymm h1 h2) not_false⟩
  exact List.eq_of_perm_of_sorted hperm hs1 hs2

/-! ## Lemmas about the segmentation scan -/

theorem lastNlIdx_spec : ∀ {l : List Char} {j : Nat}, lastNlIdx l = some j →
    j < l.length ∧ l.get? j = some '\n'
  | [], j, h => by cases h
  | c :: cs, j, h => by
    unfold lastNlIdx at h
    cases hr : lastNlIdx cs with
    | some i =>
      rw [hr] at h
      injection h with hj
      obtain ⟨h1, h2⟩ := lastNlIdx_spec hr
      subst hj
      exact ⟨by simpa using Nat.succ_lt_succ h1, by simpa using h2⟩
    | none =>
      rw [hr] at h
      by_cases hc : c == '\n'
      · rw [if_pos hc] at h
        injection h with hj
        subst hj
        refine ⟨by simp, ?_⟩
        have : c = '\n' := by simpa using hc
        simp [this]
      · rw [if_neg hc] at h
        cases h

theorem lastNlIdx_isSome_of_mem : ∀ {l : List Char}, '\n' ∈ l →
    (lastNlIdx l).isSome = true
  | [], h => absurd h (List.not_mem_nil _)
  | c :: cs, h => by
    unfold lastNlIdx
    cases hr : lastNlIdx cs with
    | some i => simp
    | none =>
      rcases List.mem_cons.mp h with h1 | h2
      · rw [if_pos (by simp [← h1])]; simp
      · have := lastNlIdx_isSome_of_mem h2
        rw [hr] at this
        cases this

theorem mem_takeWhile_append {p : Char → Bool} {c : Char} :
    ∀ {r : List Char} (w : List Char), c ∈ r.takeWhile p → c ∈ (r ++ w).takeWhile p
  | [], w, h => by simp [List.takeWhile] at h
  | a :: r2, w, h => by
    rw [List.takeWhile_cons] at h
    rw [List.cons_append, List.takeWhile_cons]
    by_cases hp : p a
    · rw [if_pos hp] at h ⊢
      rcases List.mem_cons.mp h with h1 | h2
      · exact h1 ▸ List.mem_cons_self _ _
      · exact List.mem_cons_of_mem a (mem_takeWhile_append w h2)
    · rw [if_neg hp] at h
      cases h

theorem takeWhile_take_eq {p : Char → Bool} :
    ∀ {l : List Char} {k : Nat}, k ≤ (l.takeWhile p).length →
      (l.takeWhile p).take k = l.take k
  | [], k, _ => by simp [List.takeWhile]
  | a :: l2, k, h => by
    rw [List.takeWhile_cons] at h ⊢
    by_cases hp : p a
    · rw [if_pos hp] at h ⊢
      cases k with
      | zero => simp
      | succ k2 =>
        simp only [List.take_succ_cons]
        rw [takeWhile_take_eq (by simpa using h)]
    · rw [if_neg hp] at h ⊢
      have hk : k = 0 := Nat.le_zero.mp (by simpa using h)
      subst hk
      simp

theorem isDelimMatch_cons3 (w : List Char) :
    isDelimMatch ('-' :: '-' :: '-' :: w) =
      (w.all isPySpace && w.getLast? == some '\n') := rfl

theorem matchDelim_spec {cs d rest : List Char} (h : matchDelim cs = some (d, rest)) :
    cs = d ++ rest ∧ isDelimMatch d = true ∧ rest.length + 3 ≤ cs.length := by
  unfold matchDelim at h
  split at h
  · rename_i rest0
    split at h
    · rename_i j hnl
      injection h with h1
      injection h1 with hd hrest
      obtain ⟨hjlt, hjget⟩ := lastNlIdx_spec hnl
      have hjlen : j + 1 ≤ (rest0.takeWhile isPySpace).length := hjlt
      have htake : (rest0.takeWhile isPySpace).take (j + 1) = rest0.take (j + 1) :=
        takeWhile_take_eq hjlen
      refine ⟨?_, ?_, ?_⟩
      · rw [← hd, ← hrest, htake]
        simp [List.take_append_drop]
      · rw [← hd, isDelimMatch_cons3, Bool.and_eq_true]
        constructor
        · rw [List.all_eq_true]
          intro x hx
          exact List.mem_takeWhile_imp (List.take_subset _ _ hx)
        · have hlast : ((rest0.takeWhile isPySpace).take (j + 1)).getLast? = some '\n' := by
            rw [List.getLast?_eq_get?, List.length_take]
            have hmin : min (j + 1) (rest0.takeWhile isPySpace).length = j + 1 :=
              Nat.min_eq_left hjlen
            rw [hmin]
            simpa [List.get?_take (Nat.lt_succ_self j)] using hjget
          simp [hlast]
      · rw [← hrest]
        have := List.length_drop (j + 1) rest0
        simp only [List.length_cons]
        omega
    · cases h
  · cases h

theorem matchDelim_cons3_isSome (rr : List Char) :
    (matchDelim ('-' :: '-' :: '-' :: rr)).isSome =
      (lastNlIdx (rr.takeWhile isPySpace)).isSome := by
  unfold matchDelim
  cases h : lastNlIdx (rr.takeWhile isPySpace) <;> simp [h]

theorem matchDelim_none_of_append {u w : List Char}
    (h : matchDelim (u ++ w) = none) : matchDelim u = none := by
  cases hm : matchDelim u with
  | none => rfl
  | some x =>
    exfalso
    unfold matchDelim at hm
    split at hm
    · rename_i rest0
      split at hm
      · rename_i j hnl
        have hjmem : '\n' ∈ rest0.takeWhile isPySpace :=
          List.get?_mem (lastNlIdx_spec hnl).2
        have hmem2 : '\n' ∈ (rest0 ++ w).takeWhile isPySpace :=
          mem_takeWhile_append w hjmem
        have hsome := lastNlIdx_isSome_of_mem hmem2
        rw [List.cons_append, List.cons_append, List.cons_append] at h
        have h2 : (matchDelim ('-' :: '-' :: '-' :: (rest0 ++ w))).isSome = true := by
          rw [matchDelim_cons3_isSome]
          exact hsome
        rw [h] at h2
        cases h2
      · cases hm
    · cases hm

theorem pySplitAux_succ (fuel : Nat) (cs : List Char) :
    pySplitAux (fuel + 1) cs =
      match matchDelim cs with
      | some (_, rest) => [] :: pySplitAux fuel rest
      | none =>
        match cs with
        | [] => [[]]
        | c :: cs2 =>
          match pySplitAux fuel cs2 with
          | [] => [[c]]
          | s :: ss => (c :: s) :: ss := rfl

theorem pySplitAux_ne_nil (fuel : Nat) (cs : List Char) : pySplitAux fuel cs ≠ [] := by
  cases fuel with
  | zero => simp [pySplitAux]
  | succ f =>
    rw [pySplitAux_succ]
    split
    · simp
    · split
      · simp
      · split <;> simp

theorem interleave_cons {c : Char} {s : List Char} {ss ds : List (List Char)}
    (h : ds.length = ss.length) :
    interleave ((c :: s) :: ss) ds = c :: interleave (s :: ss) ds := by
  cases ss with
  | nil =>
    have hd : ds = [] := List.length_eq_zero.mp h
    subst hd
    rfl
  | cons s2 ss2 =>
    cases ds with
    | nil => cases h
    | cons e es => simp [interleave]

/-- The reconstruction property of the splitting scan: the input text is the
interleaving of the returned segments with delimiter strings, each of which
fully matches the regex `---\s*\n`, and no returned segment contains a match
of the pattern at any of its positions. -/
theorem pySplitAux_reconstruct : ∀ (fuel : Nat) (cs : List Char), cs.length ≤ fuel →
    ∃ ds, (∀ d ∈ ds, isDelimMatch d = true) ∧
      ds.length + 1 = (pySplitAux fuel cs).length ∧
      interleave (pySplitAux fuel cs) ds = cs ∧
      ∀ s ∈ pySplitAux fuel cs, ∀ n, matchDelim (s.drop n) = none
  | 0, cs, hle => by
    have hcs : cs = [] := List.length_eq_zero.mp (Nat.le_zero.mp hle)
    subst hcs
    exact ⟨[], by simp, rfl, rfl, by intro s hs n; simp [pySplitAux] at hs; simp [hs, matchDelim]⟩
  | fuel + 1, cs, hle => by
    cases hd : matchDelim cs with
    | some p =>
      obtain ⟨d, rest⟩ := p
      have hstep : pySplitAux (fuel + 1) cs = [] :: pySplitAux fuel rest := by
        rw [pySplitAux_succ, hd]
      obtain ⟨hcs, hdm, hlen⟩ := matchDelim_spec hd
      obtain ⟨ds2, hds2, hlen2, hint2, hnom2⟩ :=
        pySplitAux_reconstruct fuel rest (by omega)
      rw [hstep]
      refine ⟨d :: ds2, ?_, ?_, ?_, ?_⟩
      · intro x hx
        rcases List.mem_cons.mp hx with h1 | h2
        · rw [h1]; exact hdm
        · exact hds2 x h2
      · simp only [List.length_cons]
        omega
      · obtain ⟨s, ss, hss⟩ := List.exists_cons_of_ne_nil (pySplitAux_ne_nil fuel rest)
        rw [hss]
        rw [hss] at hint2
        show ([] : List Char) ++ d ++ interleave (s :: ss) ds2 = cs
        rw [hcs]
        simp [hint2]
      · intro s hs n
        rcases List.mem_cons.mp hs with h1 | h2
        · rw [h1]; simp [matchDelim]
        · exact hnom2 s h2 n
    | none =>
      cases cs with
      | nil =>
        have hstep : pySplitAux (fuel + 1) [] = [[]] := by rw [pySplitAux_succ, hd]
        rw [hstep]
        exact ⟨[], by simp, rfl, rfl, by intro s hs n; simp at hs; simp [hs, matchDelim]⟩
      | cons c cs2 =>
        obtain ⟨ds2, hds2, hlen2, hint2, hnom2⟩ :=
          pySplitAux_reconstruct fuel cs2 (by simpa using Nat.le_of_succ_le_succ hle)
        obtain ⟨s, ss, hss⟩ := List.exists_cons_of_ne_nil (pySplitAux_ne_nil fuel cs2)
        have hstep : pySplitAux (fuel + 1) (c :: cs2) = (c :: s) :: ss := by
          rw [pySplitAux_succ, hd]
          show (match pySplitAux fuel cs2 with
            | [] => [[c]]
            | s :: ss => (c :: s) :: ss) = (c :: s) :: ss
          rw [hss]
        rw [hstep]
        rw [hss] at hint2 hlen2 hnom2
        have hlss : ds2.length = ss.length := by simpa using hlen2
        refine ⟨ds2, hds2, by simpa using hlen2, ?_, ?_⟩
        · rw [interleave_cons hlss]
          rw [hint2]
        · intro t ht n
          rcases List.mem_cons.mp ht with h1 | h2
          · subst h1
            cases n with
            | zero =>
              simp only [List.drop_zero]
              have hsplit : c :: cs2 = (c :: s) ++ (cs2.drop s.length) := by
                have hself : s ++ (cs2.drop s.length) = cs2 := by
                  cases ss with
                  | nil =>
                    have hd2 : ds2 = [] := List.length_eq_zero.mp (by simpa using hlss)
                    subst hd2
                    have hse : s = cs2 := hint2
                    rw [hse]
                    simp
                  | cons s2 ss2 =>
                    cases ds2 with
                    | nil => simp at hlss
                    | cons e es =>
                      have hin : s ++ (e ++ interleave (s2 :: ss2) es) = cs2 := by
                        simpa [interleave] using hint2
                      have hdrop : cs2.drop s.length = e ++ interleave (s2 :: ss2) es := by
                        rw [← hin]
                        simp
                      rw [hdrop]
                      exact hin
                conv_lhs => rw [← hself]
                simp
              rw [hsplit] at hd
              exact matchDelim_none_of_append hd
            | succ n2 =>
              simp only [List.drop_succ_cons]
              exact hnom2 s (List.mem_cons_self s ss) n2
          · exact hnom2 t (List.mem_cons_of_mem s h2) n

theorem pySplit_data (s : String) :
    (pySplit s).map String.data = pySplitAux s.data.length s.data := by
  rw [pySplit, List.map_map]
  have hcomp : (String.data ∘ String.mk) = id := rfl
  rw [hcomp, List.map_id]

theorem getLastTwo_of_reverse {α : Type} {l : List α} {b h : α} {t : List α}
    (hr : l.reverse = b :: h :: t) :
    l.get? (l.length - 2) = some h ∧ l.get? (l.length - 1) = some b := by
  have hl : l = (t.reverse ++ [h]) ++ [b] := by
    have h2 := congrArg List.reverse hr
    rw [List.reverse_reverse] at h2
    rw [h2]
    simp
  have hlen : l.length = t.length + 2 := by
    rw [← List.length_reverse, hr]
    simp
  constructor
  · rw [hl]
    rw [List.get?_append (by simp [hlen])]
    rw [List.get?_append_right (by simp [hlen])]
    simp [hlen]
  · rw [hl]
    rw [List.get?_append_right (by simp [hlen])]
    simp [hlen]

theorem pySegmentParts_none_iff (text : String) :
    pySegmentParts text = none ↔ (pySegments text).length < 2 := by
  unfold pySegmentParts
  rcases hr : (pySegments text).reverse with - | ⟨b, rest⟩
  · have h0 : pySegments text = [] := by
      have h2 := congrArg List.reverse hr
      simpa using h2
    simp [h0]
  · rcases rest with - | ⟨h2, t⟩
    · have h1 : pySegments text = [b] := by
        have h3 := congrArg List.reverse hr
        simpa using h3
      simp [h1]
    · have h4 : (pySegments text).length = t.length + 2 := by
        rw [← List.length_reverse, hr]
        simp
      simp [h4]

/-! ## The claims -/

/-- C1: for the input batch of three posts A (visible, newest date), B
(hidden, middle date), C (visible, oldest date), `create_blogchain` returns
the full list `[A, B, C]` in that order, with `A.next == C` (position 2) and
`C.prev == A` (position 0), while B's `next` and `prev` remain unset and no
visible post's link points at B (position 1). -/
theorem spec_C1 :
    ((create_blogchain docsABC).map
        (fun e => (e.post.title, e.post.hidden, e.prev, e.next)) =
      [("A", false, none, some 2), ("B", true, none, none),
        ("C", false, some 0, none)]) ∧
    ((create_blogchain docsABC).all
        (fun e => (e.prev != some 1) && (e.next != some 1))) = true := by
  decide

/-- C2: for every input document set, every visible chain entry whose `next`
is set points at a visible entry whose `prev` points back at it, and the
visible positions are linked consecutively in list order — the `next` walk
from the first visible post visits every visible post exactly once and then
stops. -/
theorem spec_C2 (docs : List (String × String)) :
    (∀ i j e, (create_blogchain docs).get? i = some e → e.post.hidden = false →
        e.next = some j →
        ∃ e2, (create_blogchain docs).get? j = some e2 ∧
          e2.post.hidden = false ∧ e2.prev = some i) ∧
    List.Chain' (fun a b => ∃ e, (create_blogchain docs).get? a = some e ∧
        e.next = some b)
      (visibleIndices (create_blogchain docs)) ∧
    (∀ a, (visibleIndices (create_blogchain docs)).getLast? = some a →
        ∃ e, (create_blogchain docs).get? a = some e ∧ e.next = none) ∧
    (∀ a, (visibleIndices (create_blogchain docs)).head? = some a →
        ∃ e, (create_blogchain docs).get? a = some e ∧ e.prev = none) :=
  linkChain_integrity (sortPosts (docs.filterMap pubFilter))

/-- C3 (code bug): a document whose header date is `2023-01-01` — matching
neither supported format — is NOT rejected: because `__validate_header`
returns `True` unconditionally, the post is constructed with `valid = True`
and an unset date, and it appears in the chain returned by
`create_blogchain`, contradicting the claimed `InvalidPost{badDate}`
failure. -/
theorem spec_C3_code_bug :
    (mkPost "t.md" rawBadDate).toOption.map
        (fun p => (p.valid, p.date, p.title, p.draft)) =
      some (true, none, "T", false) ∧
    (create_blogchain [("t.md", rawBadDate)]).map
        (fun e => (e.post.filename, e.post.date)) = [("t.md", none)] := by
  decide

/-- C4 (code bug): a document with a date but no title is NOT rejected with
`InvalidPost{missingKeys}`: the post is constructed with `valid = True` and
the default title `"Untitled"`, and it enters the compiled chain. -/
theorem spec_C4_code_bug :
    (mkPost "u.md" rawNoTitle).toOption.map
        (fun p => (p.valid, p.title, p.date)) =
      some (true, "Untitled", some ⟨2023, 1, 1⟩) ∧
    (create_blogchain [("u.md", rawNoTitle)]).map
        (fun e => (e.post.filename, e.post.title)) =
      [("u.md", "Untitled")] := by
  decide

/-- C5: every `Post` whose construction returns normally has `valid = true`,
regardless of which header keys are present or whether the date value parses
— a consequence of `__parse_header` setting `self.valid = True` after the
always-`True` validation. -/
theorem spec_C5 (fn raw : String) (p : Post) (h : mkPost fn raw = Except.ok p) :
    p.valid = true :=
  (mkPost_ok_spec h).1

theorem spec_C5_witness : postA.valid = true :=
  spec_C5 "a.md" rawA postA (by decide)

/-- C6: in a batch of three candidate files of which one lacks the `date`
key, that document fails construction at the single-file boundary (the
`KeyError` of `meta["date"]`) and `create_blogchain` returns exactly the two
valid posts. -/
theorem spec_C6 :
    mkPost "n.md" rawNoDate = Except.error PErr.keyErrorDate ∧
    (create_blogchain docsC6).map (fun e => e.post.filename) = ["a.md", "c.md"] ∧
    (create_blogchain docsC6).length = 2 := by
  decide

/-- C7: when all published posts carry pairwise distinct (set) dates, the
chain is sorted strictly descending by date, and permuting the input file
order leaves the output unchanged. -/
theorem spec_C7 (docs docs2 : List (String × String))
    (hperm : List.Perm docs docs2)
    (hsome : ∀ p ∈ docs.filterMap pubFilter, p.date.isSome = true)
    (hnodup : ((docs.filterMap pubFilter).map Post.date).Nodup) :
    List.Chain' (fun a b => postGtB a.post b.post = true) (create_blogchain docs) ∧
    create_blogchain docs = create_blogchain docs2 := by
  have heq : sortPosts (docs.filterMap pubFilter) =
      sortPosts (docs2.filterMap pubFilter) :=
    sortPosts_eq_of_perm (hperm.filterMap pubFilter) hsome hnodup
  constructor
  · have hs := sortPosts_strict (docs.filterMap pubFilter) hsome hnodup
    have hchain : List.Chain' (fun u v => postGtB u v = true)
        ((create_blogchain docs).map LinkedPost.post) := by
      show List.Chain' _
        ((linkChain (sortPosts (docs.filterMap pubFilter))).map LinkedPost.post)
      rw [linkChain_map_post]
      exact hs.chain'
    exact (List.chain'_map _).mp hchain
  · show linkChain (sortPosts (docs.filterMap pubFilter)) =
      linkChain (sortPosts (docs2.filterMap pubFilter))
    rw [heq]

theorem spec_C7_witness :
    List.Chain' (fun a b => postGtB a.post b.post = true) (create_blogchain docsAC) ∧
    create_blogchain docsAC = create_blogchain docsAC.reverse :=
  spec_C7 docsAC docsAC.reverse (List.reverse_perm docsAC).symm
    (by decide) (by decide)

/-- C8 counterexample: the source splits at `---\s*\n` anywhere, not only at
lines consisting solely of three hyphens: on `"a---\nb"` the code finds two
segments and a header/body pair, while the split prescribed by the claim
finds a single segment and must fail. -/
theorem spec_C8_counterexample :
    pySegments "a---\nb" = ["a", "b"] ∧
    specSegments "a---\nb" = ["a---\nb"] ∧
    pySegmentParts "a---\nb" = some ("a", "b") ∧
    specSegmentParts "a---\nb" = none := by
  decide

/-- C8 amended: `segment` splits the raw text exactly at the leftmost
non-overlapping occurrences of three hyphens followed by optional whitespace
terminated by a newline — occurrences that need not span a whole line —
discards the segments that are empty after trimming, treats the
second-to-last remaining segment as the header and the last as the body, and
fails if and only if fewer than two segments remain.  The third conjunct
restates the trimming rule; the fourth exhibits the matched delimiters
reconstructing the input and shows no split piece contains a further match. -/
theorem spec_C8_amended (text : String) :
    (pySegmentParts text = none ↔ (pySegments text).length < 2) ∧
    (∀ hdr body, pySegmentParts text = some (hdr, body) →
      (pySegments text).get? ((pySegments text).length - 2) = some hdr ∧
      (pySegments text).get? ((pySegments text).length - 1) = some body) ∧
    pySegments text = ((pySplit text).map pyStrip).filter (fun t => t.length > 0) ∧
    (∃ ds, (∀ d ∈ ds, isDelimMatch d = true) ∧
      ds.length + 1 = ((pySplit text).map String.data).length ∧
      interleave ((pySplit text).map String.data) ds = text.data ∧
      ∀ s ∈ (pySplit text).map String.data, ∀ n, matchDelim (s.drop n) = none) := by
  refine ⟨pySegmentParts_none_iff text, ?_, rfl, ?_⟩
  · intro hdr body hsome
    unfold pySegmentParts at hsome
    rcases hr : (pySegments text).reverse with - | ⟨b, - | ⟨h2, t⟩⟩ <;> rw [hr] at hsome
    · cases hsome
    · cases hsome
    · injection hsome with hpair
      injection hpair with e1 e2
      subst e1
      subst e2
      exact getLastTwo_of_reverse hr
  · rw [pySplit_data]
    have hlen : text.data.length ≤ text.data.length := le_refl _
    exact pySplitAux_reconstruct text.data.length text.data hlen

/-- C9: the date strings `"01.01.23"` and `"01.01.2023"`, parsed through the
ordered format list (`%d.%m.%y` first, then `%d.%m.%Y`), both yield the
calendar date 1 January 2023. -/
theorem spec_C9 :
    pyParseDate "01.01.23" = some ⟨2023, 1, 1⟩ ∧
    pyParseDate "01.01.2023" = some ⟨2023, 1, 1⟩ ∧
    pyParseDate "01.01.23" = pyParseDate "01.01.2023" := by
  decide

/-- C10: no entry of the returned chain is a draft, and no entry's metadata
contains a `draft` key (whatever its value) — so a document whose header has
a `draft` key never appears in the list returned by `create_blogchain`. -/
theorem spec_C10 (docs : List (String × String)) (e : LinkedPost)
    (he : e ∈ create_blogchain docs) :
    e.post.draft = false ∧ dictHasKey e.post.meta "draft" = false := by
  have hmem : e.post ∈ sortPosts (docs.filterMap pubFilter) := by
    have h2 : e.post ∈
        (linkChain (sortPosts (docs.filterMap pubFilter))).map LinkedPost.post :=
      List.mem_map_of_mem LinkedPost.post he
    rwa [linkChain_map_post] at h2
  have hmem2 : e.post ∈ docs.filterMap pubFilter :=
    (sortPosts_perm _).subset hmem
  obtain ⟨doc, hdoc, hpf⟩ := List.mem_filterMap.mp hmem2
  unfold pubFilter at hpf
  split at hpf
  · rename_i p hmk
    split at hpf
    · cases hpf
    · rename_i hdraft
      injection hpf with hpe
      have hspec := mkPost_ok_spec hmk
      have hdf : p.draft = false := by
        cases hv : p.draft
        · rfl
        · exact absurd hv hdraft
      rw [← hpe]
      refine ⟨hdf, ?_⟩
      rw [← hspec.2.1]
      exact hdf
  · cases hpf

theorem spec_C10_witness :
    (⟨postA, none, none⟩ : LinkedPost).post.draft = false ∧
      dictHasKey (⟨postA, none, none⟩ : LinkedPost).post.meta "draft" = false :=
  spec_C10 [("a.md", rawA)] ⟨postA, none, none⟩ (by decide)

end PyLive
